import Mathlib

/-!
Verification development for the Rules Builder Service of the
`ai-rules-builder` repository, together with the environment-selector
dropdown component (`RulePreviewTopbar.tsx`).

The repository snapshot contains the dropdown component and the project
documentation; the builder core itself (`src/services/rules-builder/`,
`src/data/ai-environments.ts`) is not part of the snapshot, so the builder
definitions below are modelled from the specification (each such definition
says so in its doc comment).  The dropdown component is embedded directly
from `src/components/rule-preview/RulePreviewTopbar.tsx`.
-/

namespace RulesBuilder

/-- Modelled from the spec §3: a rule definition from the static catalog.
`library` is nullable (`none` marks a layer-wide rule); `text` is a template
string with `\x7b\x7bkey\x7d\x7d` placeholders.  Layers are identifiers such
as `"frontend"`, `"backend"`, `"database"`; we model them as strings. -/
structure RuleDefinition where
  id : String
  layer : String
  library : Option String
  text : String
deriving DecidableEq, Repr

/-- Modelled from the spec §3: the user's tech-stack selection, a mapping
from layer to a set of library identifiers.  We model the mapping's internal
representation as a list of (layer, library) pairs; reorderings of this list
represent the unordered iterations of the implementation's map type. -/
abbrev TechStackSelection := List (String × String)

/-- Modelled from the spec §3: per-generation project metadata. -/
structure ProjectContext where
  name : String
  description : String
  placeholders : List (String × String)
deriving DecidableEq, Repr

/-- Modelled from the spec §3: the resolved, placeholder-substituted text for
one rule definition, tagged with its originating layer/library. -/
structure RulesContent where
  layer : String
  library : Option String
  content : String
deriving DecidableEq, Repr

/-- Modelled from the spec §3: one output document. -/
structure GeneratedDocument where
  filename : String
  body : String
deriving DecidableEq, Repr

/-- Modelled from the spec §4.3/§6: the two output-strategy variants. -/
inductive StrategyKind where
  | singleFile
  | multiFile
deriving DecidableEq, Repr

/-- Modelled from the spec §6: the per-environment configuration supplied by
the environment-configuration collaborator: display name, bound output
strategy, and filename/path convention. -/
structure EnvConfig where
  displayName : String
  strategy : StrategyKind
  filePath : String
deriving DecidableEq, Repr

/-- Modelled from the spec §7: the only error the core raises. -/
inductive BuildError where
  | configurationError (key : String)
deriving DecidableEq, Repr

/-! ### Placeholder Resolver (spec §4.1) -/

/-- Modelled from the spec §4.1: a placeholder key consists of alphanumeric
characters and underscores. -/
def isKeyChar (c : Char) : Bool := c.isAlphanum || c == '_'

/-- Modelled from the spec §4.1: try to read a complete placeholder token
from the front of the character stream.  Returns `some (key, rest)` when the
stream starts with an opening delimiter, a run of key characters and a
closing delimiter; `none` otherwise. -/
def tokenSplit : List Char → Option (List Char × List Char)
  | '{' :: '{' :: rest =>
    match rest.dropWhile isKeyChar with
    | '}' :: '}' :: tail => some (rest.takeWhile isKeyChar, tail)
    | _ => none
  | _ => none

theorem dropWhile_length_le (p : α → Bool) (l : List α) :
    (l.dropWhile p).length ≤ l.length := by
  induction l with
  | nil => simp [List.dropWhile]
  | cons x xs ih =>
    simp only [List.dropWhile]
    cases p x
    · simp
    · simp only [List.length_cons]
      exact Nat.le_trans ih (Nat.le_succ _)

theorem tokenSplit_length {l key tail : List Char}
    (h : tokenSplit l = some (key, tail)) : tail.length < l.length := by
  match l with
  | [] => simp [tokenSplit] at h
  | [c] =>
    unfold tokenSplit at h
    split at h <;> simp_all
  | c₁ :: c₂ :: rest =>
    unfold tokenSplit at h
    split at h
    · rename_i r heq
      cases heq
      split at h
      · rename_i tl hdrop
        have h₁ : (rest.dropWhile isKeyChar).length ≤ rest.length :=
          dropWhile_length_le _ _
        rw [hdrop] at h₁
        simp only [Option.some.injEq, Prod.mk.injEq] at h
        obtain ⟨-, h₂⟩ := h
        subst h₂
        simp only [List.length_cons] at h₁ ⊢
        omega
      · exact absurd h (by simp)
    · exact absurd h (by simp)

set_option linter.unusedVariables false in
/-- Modelled from the spec §4.1: the single-pass placeholder scanner over a
character stream.  At each position, if a complete token starts here, it is
replaced by the mapped value (key present — the inserted value is not
re-scanned) or emitted verbatim (key absent); otherwise one character is
emitted and scanning continues. -/
def resolveChars (ph : List (String × String)) : List Char → List Char
  | [] => []
  | c :: rest =>
    match h : tokenSplit (c :: rest) with
    | some (key, tail) =>
      match List.lookup (String.mk key) ph with
      | some v => v.toList ++ resolveChars ph tail
      | none => '{' :: '{' :: (key ++ '}' :: '}' :: resolveChars ph tail)
    | none => c :: resolveChars ph rest
termination_by l => l.length
decreasing_by
  all_goals first
  | exact tokenSplit_length h
  | simp

/-- Modelled from the spec §4.1:
`resolve(text, placeholders)` substitutes `\x7b\x7bkey\x7d\x7d` tokens in a
single pass, leaving tokens with unmapped keys verbatim. -/
def resolve (text : String) (ph : List (String × String)) : String :=
  String.mk (resolveChars ph text.toList)

/-! ### Scanner lemmas -/

theorem resolveChars_nil (ph : List (String × String)) : resolveChars ph [] = [] := by
  simp [resolveChars]

theorem resolveChars_cons_none (ph : List (String × String)) {c : Char} {rest : List Char}
    (h : tokenSplit (c :: rest) = none) :
    resolveChars ph (c :: rest) = c :: resolveChars ph rest := by
  rw [resolveChars]
  split
  · rename_i heq
    rw [h] at heq
    exact absurd heq (by simp)
  · rfl

theorem resolveChars_cons_some_found (ph : List (String × String)) {c : Char}
    {rest key tail : List Char} {v : String}
    (h : tokenSplit (c :: rest) = some (key, tail))
    (hv : List.lookup (String.mk key) ph = some v) :
    resolveChars ph (c :: rest) = v.toList ++ resolveChars ph tail := by
  rw [resolveChars]
  split
  · rename_i k t heq
    rw [h] at heq
    simp only [Option.some.injEq, Prod.mk.injEq] at heq
    obtain ⟨hk, ht⟩ := heq
    subst hk; subst ht
    rw [hv]
  · rename_i heq
    rw [h] at heq
    exact absurd heq (by simp)

theorem resolveChars_cons_some_missing (ph : List (String × String)) {c : Char}
    {rest key tail : List Char}
    (h : tokenSplit (c :: rest) = some (key, tail))
    (hv : List.lookup (String.mk key) ph = none) :
    resolveChars ph (c :: rest) =
      '{' :: '{' :: (key ++ '}' :: '}' :: resolveChars ph tail) := by
  rw [resolveChars]
  split
  · rename_i k t heq
    rw [h] at heq
    simp only [Option.some.injEq, Prod.mk.injEq] at heq
    obtain ⟨hk, ht⟩ := heq
    subst hk; subst ht
    rw [hv]
  · rename_i heq
    rw [h] at heq
    exact absurd heq (by simp)

theorem tokenSplit_cons_ne {c : Char} (rest : List Char) (h : c ≠ '{') :
    tokenSplit (c :: rest) = none := by
  unfold tokenSplit
  split
  · rename_i heq
    cases heq
    exact absurd rfl h
  · rfl

theorem takeWhile_append_stop {p : α → Bool} {xs : List α} (ys : List α)
    (h : ∀ x ∈ xs, p x = true) {y : α} (hy : p y = false) :
    ((xs ++ y :: ys).takeWhile p) = xs := by
  induction xs with
  | nil => simp [List.takeWhile, hy]
  | cons x xs ih =>
    simp only [List.cons_append, List.takeWhile]
    rw [h x (by simp)]
    simp only [List.cons.injEq, true_and]
    exact ih fun a ha => h a (by simp [ha])

theorem dropWhile_append_stop {p : α → Bool} {xs : List α} (ys : List α)
    (h : ∀ x ∈ xs, p x = true) {y : α} (hy : p y = false) :
    ((xs ++ y :: ys).dropWhile p) = y :: ys := by
  induction xs with
  | nil => simp [List.dropWhile, hy]
  | cons x xs ih =>
    simp only [List.cons_append, List.dropWhile]
    rw [h x (by simp)]
    exact ih fun a ha => h a (by simp [ha])

/-- The scanner recognises a well-formed token at the front of the stream. -/
theorem tokenSplit_token (key rest : List Char) (hk : ∀ c ∈ key, isKeyChar c = true) :
    tokenSplit ('{' :: '{' :: (key ++ '}' :: '}' :: rest)) = some (key, rest) := by
  have hbr : isKeyChar '}' = false := by decide
  unfold tokenSplit
  split
  · rename_i r heq
    simp only [List.cons.injEq] at heq
    obtain ⟨-, -, hr⟩ := heq
    subst hr
    rw [show key ++ '}' :: '}' :: rest = key ++ '}' :: ('}' :: rest) from rfl,
      dropWhile_append_stop ('}' :: rest) hk hbr,
      takeWhile_append_stop ('}' :: rest) hk hbr]
    rfl
  · rename_i hne
    exact (hne (key ++ '}' :: '}' :: rest) rfl).elim

/-- A literal stretch with no opening brace is copied verbatim by the
scanner, which then continues with whatever follows. -/
theorem resolveChars_append_lit (ph : List (String × String)) {cs : List Char}
    (h : ∀ c ∈ cs, c ≠ '{') (rest : List Char) :
    resolveChars ph (cs ++ rest) = cs ++ resolveChars ph rest := by
  induction cs with
  | nil => rfl
  | cons c cs ih =>
    have hc : c ≠ '{' := h c (by simp)
    rw [List.cons_append, resolveChars_cons_none ph (tokenSplit_cons_ne _ hc)]
    exact congrArg (List.cons c) (ih fun a ha => h a (by simp [ha]))

/-! ### Token-structure model of rule text (spec §4.1)

A rule text is viewed as a sequence of fragments: literal stretches and
well-formed placeholder tokens.  `render` produces the concrete text;
`subst` is the substitution the spec prescribes per fragment. -/

/-- A fragment of rule text: a literal stretch or a `\x7b\x7bkey\x7d\x7d`
placeholder token. -/
inductive Fragment where
  | lit (s : String)
  | tok (key : String)
deriving DecidableEq, Repr

/-- The concrete text of a fragment. -/
def Fragment.render : Fragment → String
  | .lit s => s
  | .tok key => "\x7b\x7b" ++ key ++ "\x7d\x7d"

/-- Well-formedness: literals contain no opening brace; token keys consist
of key characters only. -/
def Fragment.wfB : Fragment → Bool
  | .lit s => s.toList.all (fun c => c != '{')
  | .tok key => key.toList.all isKeyChar

/-- The substitution the spec prescribes for one fragment: a token whose key
is mapped is replaced by the literal mapped value; a token whose key is
absent stays verbatim; literals are untouched. -/
def Fragment.subst (ph : List (String × String)) : Fragment → String
  | .lit s => s
  | .tok key =>
    match List.lookup key ph with
    | some v => v
    | none => "\x7b\x7b" ++ key ++ "\x7d\x7d"

/-- The concrete text of a fragment sequence. -/
def renderAll : List Fragment → String
  | [] => ""
  | f :: fs => f.render ++ renderAll fs

/-- The spec-prescribed substitution applied fragment by fragment. -/
def substAll (ph : List (String × String)) : List Fragment → String
  | [] => ""
  | f :: fs => f.subst ph ++ substAll ph fs

theorem substAll_append (ph : List (String × String)) (a b : List Fragment) :
    substAll ph (a ++ b) = substAll ph a ++ substAll ph b := by
  induction a with
  | nil => simp [substAll]
  | cons f fs ih => simp [substAll, ih, String.append_assoc]

/-- Central scanner correctness lemma: on the rendering of a well-formed
fragment sequence, the scanner produces exactly the spec-prescribed
per-fragment substitution. -/
theorem resolveChars_renderAll (ph : List (String × String)) (fs : List Fragment)
    (h : fs.all Fragment.wfB = true) :
    resolveChars ph (renderAll fs).toList = (substAll ph fs).toList := by
  induction fs with
  | nil => simp [renderAll, substAll, resolveChars_nil]
  | cons f fs ih =>
    simp only [List.all_cons, Bool.and_eq_true] at h
    obtain ⟨hf, hfs⟩ := h
    match f with
    | .lit s =>
      have hs : ∀ c ∈ s.toList, c ≠ '{' := by
        simpa [Fragment.wfB, List.all_eq_true] using hf
      calc resolveChars ph (renderAll (.lit s :: fs)).toList
          = resolveChars ph (s.toList ++ (renderAll fs).toList) := by
            simp [renderAll, Fragment.render, String.data_append]
        _ = s.toList ++ resolveChars ph (renderAll fs).toList :=
            resolveChars_append_lit ph hs _
        _ = s.toList ++ (substAll ph fs).toList := by rw [ih hfs]
        _ = (substAll ph (.lit s :: fs)).toList := by
            simp [substAll, Fragment.subst, String.data_append]
    | .tok k =>
      have hk : ∀ c ∈ k.toList, isKeyChar c = true := by
        simpa [Fragment.wfB, List.all_eq_true] using hf
      have hshape : (renderAll (.tok k :: fs)).toList =
          '{' :: '{' :: (k.toList ++ '}' :: '}' :: (renderAll fs).toList) := by
        simp [renderAll, Fragment.render, String.data_append]
      have hts : tokenSplit ((renderAll (.tok k :: fs)).toList) =
          some (k.toList, (renderAll fs).toList) := by
        rw [hshape]; exact tokenSplit_token _ _ hk
      have hmk : String.mk k.toList = k := rfl
      rw [hshape] at hts ⊢
      cases hv : List.lookup k ph with
      | some v =>
        rw [resolveChars_cons_some_found ph hts (by rw [hmk]; exact hv), ih hfs]
        simp [substAll, Fragment.subst, hv, String.data_append]
      | none =>
        rw [resolveChars_cons_some_missing ph hts (by rw [hmk]; exact hv), ih hfs]
        simp [substAll, Fragment.subst, hv, String.data_append]

/-! ### Rule Selector (spec §4.2) -/

/-- Modelled from the spec §4.2: a rule definition is included when its
(layer, library) pair matches an entry of the stack, or when it is
layer-wide (`library` is `none`) and its layer has any library selected. -/
def matchesStack (stack : TechStackSelection) (rd : RuleDefinition) : Bool :=
  match rd.library with
  | some lib => stack.contains (rd.layer, lib)
  | none => stack.any (fun p => p.1 == rd.layer)

/-- Modelled from the spec §4.2: `select` iterates the catalog in its fixed
declaration order, keeping the definitions that match the stack. -/
def select (stack : TechStackSelection) (catalog : List RuleDefinition) :
    List RuleDefinition :=
  catalog.filter (matchesStack stack)

/-! ### Output strategies (spec §4.3) -/

/-- Modelled from the spec §4.3: the document block for one resolved rule —
a layer/library header line followed by the rule content. -/
def entryBlock (e : RulesContent) : String :=
  "## " ++ e.layer ++
    (match e.library with
      | some lib => " / " ++ lib
      | none => "") ++ "\n" ++ e.content

/-- Modelled from the spec §4.3: the Single-File strategy concatenates all
entries into one document named by the environment's canonical rules
filename; empty input yields an empty document set. -/
def singleFileAssemble (cfg : EnvConfig) (entries : List RulesContent) :
    List GeneratedDocument :=
  match entries with
  | [] => []
  | _ :: _ => [⟨cfg.filePath, String.intercalate "\n\n" (entries.map entryBlock)⟩]

/-- First-occurrence deduplication, preserving the order in which layers
first appear (which for selected rules is catalog order). -/
def dedupFirst : List String → List String
  | [] => []
  | x :: xs => x :: dedupFirst (xs.filter (fun y => y != x))
termination_by l => l.length
decreasing_by
  have := List.length_filter_le (fun y => y != x) xs
  simp only [List.length_cons]
  omega

/-- The distinct layers of an entry sequence, in first-occurrence order. -/
def layersOf (entries : List RulesContent) : List String :=
  dedupFirst (entries.map (fun e => e.layer))

/-- Modelled from the spec §4.3: the Multi-File grouping — one group per
layer that has at least one entry, keyed by layer, entries in input order. -/
def groupByLayer (entries : List RulesContent) :
    List (String × List RulesContent) :=
  (layersOf entries).map
    (fun ly => (ly, entries.filter (fun e => e.layer == ly)))

/-- Modelled from the spec §4.3: the Multi-File strategy renders one
document per non-empty layer group, filename derived from the layer
identifier and the environment's path convention. -/
def multiFileAssemble (cfg : EnvConfig) (entries : List RulesContent) :
    List GeneratedDocument :=
  (groupByLayer entries).map
    (fun g => ⟨cfg.filePath ++ g.1 ++ ".md",
      String.intercalate "\n\n" (g.2.map entryBlock)⟩)

/-! ### Rules Builder Service façade (spec §4.4) -/

/-- Modelled from the spec §3/§4.1: resolve one selected rule definition's
text against the project placeholders, tagging the result with its
originating layer/library. -/
def toRulesContent (ph : List (String × String)) (rd : RuleDefinition) :
    RulesContent :=
  { layer := rd.layer, library := rd.library, content := resolve rd.text ph }

/-- Modelled from the spec §4.4: the build façade.  Looks up the
environment's configuration (unknown key: `ConfigurationError`), selects
the catalog rules matching the stack, resolves placeholders, and assembles
with the strategy bound to the environment. -/
def build (cfgs : List (String × EnvConfig)) (catalog : List RuleDefinition)
    (stack : TechStackSelection) (project : ProjectContext)
    (environment : String) : Except BuildError (List GeneratedDocument) :=
  match List.lookup environment cfgs with
  | none => .error (.configurationError environment)
  | some cfg =>
    let resolved := (select stack catalog).map (toRulesContent project.placeholders)
    .ok (match cfg.strategy with
      | .singleFile => singleFileAssemble cfg resolved
      | .multiFile => multiFileAssemble cfg resolved)

/-- Modelled from the spec §6: a concrete environment-configuration table,
with one single-file environment and one multi-file environment. -/
def aiEnvironmentConfig : List (String × EnvConfig) :=
  [("copilot", ⟨"GitHub Copilot", .singleFile, "copilot-instructions.md"⟩),
   ("cursor", ⟨"Cursor", .multiFile, ".cursor/rules/"⟩)]

/-! ### Claim theorems -/

/-- C1: `build` is a pure, deterministic function of its inputs: two calls
with identical `(stack, project, environment)` (and the same configuration
table and catalog) yield identical ordered sequences of documents.  The
embedding is a total function with no clock, randomness or hidden state, so
determinism is definitional. -/
theorem build_deterministic (cfgs : List (String × EnvConfig))
    (catalog : List RuleDefinition) (stack : TechStackSelection)
    (project : ProjectContext) (environment : String) :
    build cfgs catalog stack project environment =
      build cfgs catalog stack project environment := rfl

/-- C2: `build` fails exactly when the environment is not a recognized
configuration key — in that case with `ConfigurationError` — and for every
input with a recognized environment (empty stack, missing placeholder keys,
unknown libraries included) it returns normally. -/
theorem build_error_iff_unknown_environment (cfgs : List (String × EnvConfig))
    (catalog : List RuleDefinition) (stack : TechStackSelection)
    (project : ProjectContext) (environment : String) :
    ((∃ e, build cfgs catalog stack project environment = .error e) ↔
      List.lookup environment cfgs = none)
    ∧ (∀ e, build cfgs catalog stack project environment = .error e →
        e = .configurationError environment)
    ∧ (List.lookup environment cfgs = none →
        build cfgs catalog stack project environment =
          .error (.configurationError environment))
    ∧ (∀ cfg, List.lookup environment cfgs = some cfg →
        ∃ docs, build cfgs catalog stack project environment = .ok docs) := by
  cases h : List.lookup environment cfgs with
  | none => simp [build, h]
  | some cfg => simp [build, h]

/-- C3: on any rule text made of literal stretches and well-formed
placeholder tokens, `resolve` replaces each token whose key the mapping
binds by the literal mapped value, leaves each token with an unbound key
verbatim, and never partially substitutes a token: the output is exactly the
fragment-wise substitution prescribed by the spec, and no error is raised
(`resolve` is total). -/
theorem resolve_total_or_verbatim (fs : List Fragment)
    (ph : List (String × String)) (h : fs.all Fragment.wfB = true) :
    resolve (renderAll fs) ph = substAll ph fs := by
  show String.mk (resolveChars ph (renderAll fs).toList) = substAll ph fs
  rw [resolveChars_renderAll ph fs h]
  rfl

/-- Witness for C3: Scenario A/B shape — `"Use \x7b\x7bframework\x7d\x7d
hooks."` resolves to `"Use React hooks."` under the mapping and stays
verbatim under the empty mapping. -/
theorem resolve_total_or_verbatim_witness :
    ([Fragment.lit "Use ", Fragment.tok "framework",
        Fragment.lit " hooks."].all Fragment.wfB = true)
    ∧ resolve (renderAll [Fragment.lit "Use ", Fragment.tok "framework",
        Fragment.lit " hooks."]) [("framework", "React")]
      = substAll [("framework", "React")]
          [Fragment.lit "Use ", Fragment.tok "framework", Fragment.lit " hooks."]
    ∧ resolve (renderAll [Fragment.lit "Use ", Fragment.tok "framework",
        Fragment.lit " hooks."]) []
      = substAll []
          [Fragment.lit "Use ", Fragment.tok "framework", Fragment.lit " hooks."] :=
  ⟨by decide,
   resolve_total_or_verbatim _ _ (by decide),
   resolve_total_or_verbatim _ _ (by decide)⟩

/-- C9: placeholder resolution is single-pass and non-recursive: a mapped
value inserted by `resolve` is never re-scanned, so it appears in the output
exactly as the literal value `v` — whatever `v` contains, tokens included —
with resolution of the surrounding text unaffected. -/
theorem resolve_no_rescan (pre post : List Fragment) (k v : String)
    (ph : List (String × String))
    (hpre : pre.all Fragment.wfB = true) (hpost : post.all Fragment.wfB = true)
    (hk : k.toList.all isKeyChar = true)
    (hv : List.lookup k ph = some v) :
    resolve (renderAll (pre ++ Fragment.tok k :: post)) ph
      = substAll ph pre ++ (v ++ substAll ph post) := by
  have hall : (pre ++ Fragment.tok k :: post).all Fragment.wfB = true := by
    simp only [List.all_append, List.all_cons, Bool.and_eq_true]
    exact ⟨hpre, by simpa [Fragment.wfB] using hk, hpost⟩
  show String.mk (resolveChars ph (renderAll (pre ++ Fragment.tok k :: post)).toList)
      = substAll ph pre ++ (v ++ substAll ph post)
  rw [resolveChars_renderAll ph _ hall]
  show substAll ph (pre ++ Fragment.tok k :: post)
      = substAll ph pre ++ (v ++ substAll ph post)
  rw [substAll_append]
  show substAll ph pre ++ ((Fragment.tok k).subst ph ++ substAll ph post) = _
  simp [Fragment.subst, hv]

/-- Witness for C9: the mapped value `"\x7b\x7bb\x7d\x7d"` for key `a` is
inserted verbatim and not substituted again, even though `b` is itself
mapped. -/
theorem resolve_no_rescan_witness :
    (([] : List Fragment).all Fragment.wfB = true)
    ∧ ([Fragment.lit "!"].all Fragment.wfB = true)
    ∧ ("a".toList.all isKeyChar = true)
    ∧ (List.lookup "a" [("a", "\x7b\x7bb\x7d\x7d"), ("b", "X")] = some "\x7b\x7bb\x7d\x7d")
    ∧ resolve (renderAll ([] ++ Fragment.tok "a" :: [Fragment.lit "!"]))
        [("a", "\x7b\x7bb\x7d\x7d"), ("b", "X")]
      = substAll [("a", "\x7b\x7bb\x7d\x7d"), ("b", "X")] []
        ++ ("\x7b\x7bb\x7d\x7d" ++ substAll [("a", "\x7b\x7bb\x7d\x7d"), ("b", "X")] [Fragment.lit "!"]) :=
  ⟨by decide, by decide, by decide, by decide,
   resolve_no_rescan _ _ _ _ _ (by decide) (by decide) (by decide) (by decide)⟩

theorem matchesStack_iff (stack : TechStackSelection) (rd : RuleDefinition) :
    matchesStack stack rd = true ↔
      ((∃ lib, rd.library = some lib ∧ (rd.layer, lib) ∈ stack) ∨
       (rd.library = none ∧ ∃ p ∈ stack, p.1 = rd.layer)) := by
  unfold matchesStack
  cases hl : rd.library with
  | some lib => simp [List.contains, List.elem_iff]
  | none => simp [List.any_eq_true]

/-- C4: `select` returns exactly the catalog definitions whose
(layer, library) pair matches a stack entry, or which are layer-wide for a
layer with a selected library; the result is a sublist of the catalog (so it
preserves catalog declaration order), and each matching definition occurs in
it exactly as often as in the catalog — once for a duplicate-free catalog —
however many times its library occurs in the stack. -/
theorem select_exactly_matching (stack : TechStackSelection)
    (catalog : List RuleDefinition) :
    (select stack catalog).Sublist catalog
    ∧ (∀ rd, rd ∈ select stack catalog ↔
        rd ∈ catalog ∧
          ((∃ lib, rd.library = some lib ∧ (rd.layer, lib) ∈ stack) ∨
           (rd.library = none ∧ ∃ p ∈ stack, p.1 = rd.layer)))
    ∧ (catalog.Nodup → (select stack catalog).Nodup)
    ∧ (∀ rd, matchesStack stack rd = true →
        (select stack catalog).count rd = catalog.count rd) := by
  refine ⟨List.filter_sublist catalog, fun rd => ?_, fun h => h.filter _,
    fun rd h => List.count_filter h⟩
  rw [select, List.mem_filter, matchesStack_iff]

/-- C5: the output of `build` is invariant under any permutation of the
stack's internal representation: two orderings of the same selections
produce identical output. -/
theorem build_stack_order_invariant (cfgs : List (String × EnvConfig))
    (catalog : List RuleDefinition) (project : ProjectContext)
    (environment : String) (s₁ s₂ : TechStackSelection) (h : s₁.Perm s₂) :
    build cfgs catalog s₁ project environment =
      build cfgs catalog s₂ project environment := by
  have hm : ∀ rd, matchesStack s₁ rd = matchesStack s₂ rd := by
    intro rd
    rw [Bool.eq_iff_iff, matchesStack_iff, matchesStack_iff]
    constructor
    · rintro (⟨lib, h1, h2⟩ | ⟨h1, p, hp, hpp⟩)
      · exact Or.inl ⟨lib, h1, h.mem_iff.mp h2⟩
      · exact Or.inr ⟨h1, p, h.mem_iff.mp hp, hpp⟩
    · rintro (⟨lib, h1, h2⟩ | ⟨h1, p, hp, hpp⟩)
      · exact Or.inl ⟨lib, h1, h.mem_iff.mpr h2⟩
      · exact Or.inr ⟨h1, p, h.mem_iff.mpr hp, hpp⟩
  have hs : select s₁ catalog = select s₂ catalog :=
    List.filter_congr (fun rd _ => hm rd)
  unfold build
  cases List.lookup environment cfgs with
  | none => rfl
  | some cfg => rw [hs]

/-- Witness for C5: reordering a two-entry stack does not change the
generated documents. -/
theorem build_stack_order_invariant_witness :
    ([("frontend", "react"), ("backend", "express")] : TechStackSelection).Perm
      [("backend", "express"), ("frontend", "react")]
    ∧ build aiEnvironmentConfig
        [⟨"r1", "frontend", some "react", "fr"⟩,
         ⟨"r2", "backend", some "express", "be"⟩]
        [("frontend", "react"), ("backend", "express")] ⟨"p", "d", []⟩ "cursor"
      = build aiEnvironmentConfig
        [⟨"r1", "frontend", some "react", "fr"⟩,
         ⟨"r2", "backend", some "express", "be"⟩]
        [("backend", "express"), ("frontend", "react")] ⟨"p", "d", []⟩ "cursor" :=
  ⟨by decide,
   build_stack_order_invariant _ _ _ _ _ _ (by decide)⟩

theorem mem_dedupFirst (l : List String) (a : String) :
    a ∈ dedupFirst l ↔ a ∈ l := by
  induction l using dedupFirst.induct with
  | case1 => simp [dedupFirst]
  | case2 x xs ih =>
    rw [dedupFirst]
    by_cases hax : a = x
    · simp [hax]
    · simp only [List.mem_cons, hax, false_or, ih, List.mem_filter, bne_iff_ne,
        ne_eq, hax, not_false_eq_true, and_true]

theorem dedupFirst_nodup (l : List String) : (dedupFirst l).Nodup := by
  induction l using dedupFirst.induct with
  | case1 => simp [dedupFirst]
  | case2 x xs ih =>
    rw [dedupFirst]
    refine List.nodup_cons.mpr ⟨fun hx => ?_, ih⟩
    have := (mem_dedupFirst _ _).mp hx
    simp [List.mem_filter] at this

theorem mem_layersOf (entries : List RulesContent) (e : RulesContent)
    (he : e ∈ entries) : e.layer ∈ layersOf entries :=
  (mem_dedupFirst _ _).mpr (List.mem_map_of_mem _ he)

theorem layersOf_nodup (entries : List RulesContent) : (layersOf entries).Nodup :=
  dedupFirst_nodup _

theorem mem_layersOf_iff (entries : List RulesContent) (ly : String) :
    ly ∈ layersOf entries ↔ ∃ e ∈ entries, e.layer = ly := by
  rw [layersOf, mem_dedupFirst, List.mem_map]

theorem groupByLayer_keys (entries : List RulesContent) :
    (groupByLayer entries).map Prod.fst = layersOf entries := by
  simp only [groupByLayer, List.map_map]
  exact List.map_id _

theorem mem_groupByLayer (entries : List RulesContent)
    (g : String × List RulesContent) :
    g ∈ groupByLayer entries ↔
      g.1 ∈ layersOf entries ∧
        g.2 = entries.filter (fun e => e.layer == g.1) := by
  simp only [groupByLayer, List.mem_map]
  constructor
  · rintro ⟨ly, hly, rfl⟩
    exact ⟨hly, rfl⟩
  · rintro ⟨h1, h2⟩
    exact ⟨g.1, h1, by rw [← h2]⟩

/-- The concatenation of per-key filters over a duplicate-free list of keys
covering every element's key is a permutation of the original list. -/
theorem flatten_filter_perm (ls : List String) (entries : List RulesContent)
    (hn : ls.Nodup) (hc : ∀ e ∈ entries, e.layer ∈ ls) :
    ((ls.map (fun ly => entries.filter (fun e => e.layer == ly))).flatten).Perm
      entries := by
  induction ls generalizing entries with
  | nil =>
    cases entries with
    | nil => simp
    | cons e es => exact absurd (hc e (by simp)) (by simp)
  | cons l ls ih =>
    obtain ⟨hl, hls⟩ := List.nodup_cons.mp hn
    have key : ∀ ly ∈ ls, entries.filter (fun e => e.layer == ly)
        = (entries.filter (fun e => !(e.layer == l))).filter
            (fun e => e.layer == ly) := by
      intro ly hly
      rw [List.filter_filter]
      refine List.filter_congr fun e _ => ?_
      by_cases hel : e.layer = ly
      · have : ly ≠ l := fun h => hl (h ▸ hly)
        simp [hel, this]
      · simp [hel]
    have hmap : ls.map (fun ly => entries.filter (fun e => e.layer == ly))
        = ls.map (fun ly => (entries.filter (fun e => !(e.layer == l))).filter
            (fun e => e.layer == ly)) :=
      List.map_congr_left key
    have ihx := ih (entries.filter (fun e => !(e.layer == l))) hls
      (fun e he => by
        obtain ⟨hee, hne⟩ := List.mem_filter.mp he
        have := hc e hee
        simp only [List.mem_cons] at this
        rcases this with h | h
        · simp [h] at hne
        · exact h)
    refine List.Perm.trans ?_ (List.filter_append_perm (fun e => e.layer == l) entries)
    rw [List.map_cons, List.flatten_cons, hmap]
    exact List.Perm.append_left _ ihx

theorem groupByLayer_flatten_perm (entries : List RulesContent) :
    (((groupByLayer entries).map Prod.snd).flatten).Perm entries := by
  have : (groupByLayer entries).map Prod.snd
      = (layersOf entries).map (fun ly => entries.filter (fun e => e.layer == ly)) := by
    simp [groupByLayer]
  rw [this]
  exact flatten_filter_perm _ _ (layersOf_nodup entries) (mem_layersOf entries)

theorem exists_unique_group (entries : List RulesContent) (e : RulesContent)
    (he : e ∈ entries) :
    ∃! g, g ∈ groupByLayer entries ∧ e ∈ g.2 := by
  refine ⟨(e.layer, entries.filter (fun x => x.layer == e.layer)), ⟨?_, ?_⟩, ?_⟩
  · rw [mem_groupByLayer]
    exact ⟨mem_layersOf _ _ he, rfl⟩
  · simp [List.mem_filter, he]
  · rintro g ⟨hg, heg⟩
    rw [mem_groupByLayer] at hg
    obtain ⟨h1, h2⟩ := hg
    have hkey : e.layer = g.1 := by
      rw [h2] at heg
      simpa using (List.mem_filter.mp heg).2
    obtain ⟨gk, gv⟩ := g
    simp only at hkey h2
    subst hkey
    rw [h2]

theorem groupByLayer_nil : groupByLayer [] = [] := by
  simp [groupByLayer, layersOf, dedupFirst]

/-- C7: for both output strategies, every input entry appears in exactly one
output document, and the empty input yields an empty document set rather
than an error or an empty document.  Single-File produces one document built
from all entries in order; Multi-File produces exactly one document per
layer group, and every entry belongs to exactly one layer group. -/
theorem strategy_entry_coverage (cfg : EnvConfig) (entries : List RulesContent) :
    (singleFileAssemble cfg [] = [] ∧ multiFileAssemble cfg [] = [])
    ∧ (entries ≠ [] → singleFileAssemble cfg entries =
        [⟨cfg.filePath, String.intercalate "\n\n" (entries.map entryBlock)⟩])
    ∧ multiFileAssemble cfg entries =
        (groupByLayer entries).map (fun g => ⟨cfg.filePath ++ g.1 ++ ".md",
          String.intercalate "\n\n" (g.2.map entryBlock)⟩)
    ∧ (∀ e ∈ entries, ∃! g, g ∈ groupByLayer entries ∧ e ∈ g.2) := by
  refine ⟨⟨rfl, by rw [multiFileAssemble, groupByLayer_nil]; rfl⟩, ?_, rfl,
    fun e he => exists_unique_group entries e he⟩
  intro hne
  cases entries with
  | nil => exact absurd rfl hne
  | cons a l => rfl

/-- C8: the strategy partition law.  The union (concatenation) of the
Multi-File documents' source-entry groups is a permutation of the input —
which is exactly the Single-File document's entry sequence — the Multi-File
groups are disjoint by layer (duplicate-free layer keys, each group holding
exactly its layer's entries, no group for an empty layer), and group entries
are the very input `RulesContent` values. -/
theorem strategy_partition_law (cfg : EnvConfig) (entries : List RulesContent) :
    (((groupByLayer entries).map Prod.snd).flatten).Perm entries
    ∧ (entries ≠ [] → singleFileAssemble cfg entries =
        [⟨cfg.filePath, String.intercalate "\n\n" (entries.map entryBlock)⟩])
    ∧ ((groupByLayer entries).map Prod.fst).Nodup
    ∧ (∀ g ∈ groupByLayer entries, ∀ e, (e ∈ g.2 ↔ e ∈ entries ∧ e.layer = g.1))
    ∧ (∀ g ∈ groupByLayer entries, g.2 ≠ [])
    ∧ (multiFileAssemble cfg entries).length = (groupByLayer entries).length := by
  refine ⟨groupByLayer_flatten_perm entries, ?_, ?_, ?_, ?_, by
    rw [multiFileAssemble, List.length_map]⟩
  · intro hne
    cases entries with
    | nil => exact absurd rfl hne
    | cons a l => rfl
  · rw [groupByLayer_keys]
    exact layersOf_nodup entries
  · intro g hg e
    obtain ⟨h1, h2⟩ := (mem_groupByLayer entries g).mp hg
    rw [h2, List.mem_filter]
    simp
  · intro g hg
    obtain ⟨h1, h2⟩ := (mem_groupByLayer entries g).mp hg
    obtain ⟨e, he, hel⟩ := (mem_layersOf_iff entries g.1).mp h1
    intro hnil
    have : e ∈ g.2 := by
      rw [h2, List.mem_filter]
      simp [he, hel]
    rw [hnil] at this
    simp at this

/-- C6 counterexample: with a catalog holding a layer-wide `frontend` rule,
the stack whose only selection is the unknown library
`("frontend", "unknown-lib")` — absent from the catalog — makes `build`
return a non-empty document set: per spec §4.2 a layer-wide definition is
included as soon as its layer has any library selected, the unknown library
included.  So the claim "a stack whose only selection is a library absent
from the catalog yields an empty document set" is false as stated. -/
theorem unknown_library_layerwide_counterexample :
    build aiEnvironmentConfig [⟨"r1", "frontend", none, "Layer-wide rule"⟩]
      [("frontend", "unknown-lib")] ⟨"p", "d", []⟩ "copilot"
      ≠ Except.ok [] := by
  intro h
  have h2 : Except.ok (ε := BuildError)
      [GeneratedDocument.mk "copilot-instructions.md"
        (String.intercalate "\n\n"
          [entryBlock (toRulesContent [] ⟨"r1", "frontend", none, "Layer-wide rule"⟩)])]
      = Except.ok ([] : List GeneratedDocument) := h
  simp at h2

/-- C6 amended: unknown selections are silently dropped without error: when
the environment is recognized and no catalog definition matches the stack —
no selected (layer, library) pair is in the catalog and no layer-wide
definition exists for a selected layer — `build` returns the empty document
set and raises no error. -/
theorem unknown_libraries_dropped (cfgs : List (String × EnvConfig))
    (catalog : List RuleDefinition) (stack : TechStackSelection)
    (project : ProjectContext) (environment : String) (cfg : EnvConfig)
    (henv : List.lookup environment cfgs = some cfg)
    (hlib : ∀ rd ∈ catalog, ∀ lib, rd.library = some lib → (rd.layer, lib) ∉ stack)
    (hwide : ∀ rd ∈ catalog, rd.library = none → ∀ p ∈ stack, p.1 ≠ rd.layer) :
    build cfgs catalog stack project environment = Except.ok [] := by
  have hsel : select stack catalog = [] := by
    rw [select]
    rw [List.filter_eq_nil_iff]
    intro rd hrd
    rw [matchesStack_iff]
    rintro (⟨lib, h1, h2⟩ | ⟨h1, p, hp, hpp⟩)
    · exact hlib rd hrd lib h1 h2
    · exact hwide rd hrd h1 p hp hpp
  rw [build, henv, hsel]
  cases cfg with
  | mk dn st fp =>
    cases st with
    | singleFile => rfl
    | multiFile =>
      show Except.ok (multiFileAssemble ⟨dn, .multiFile, fp⟩
        (List.map (toRulesContent project.placeholders) [])) = Except.ok []
      rw [List.map_nil]
      simp only [multiFileAssemble, groupByLayer_nil, List.map_nil]

/-- Witness for the amended C6: spec Scenario D — the only selection is
`("frontend", "unknown-lib")`, absent from a catalog that has one
`react` rule and no layer-wide rule; `build` returns the empty document
set. -/
theorem unknown_libraries_dropped_witness :
    (List.lookup "copilot" aiEnvironmentConfig =
      some (EnvConfig.mk "GitHub Copilot" StrategyKind.singleFile
        "copilot-instructions.md"))
    ∧ (∀ rd ∈ [RuleDefinition.mk "r1" "frontend" (some "react")
          "Use \x7b\x7bframework\x7d\x7d hooks."], ∀ lib, rd.library = some lib →
        (rd.layer, lib) ∉ ([("frontend", "unknown-lib")] : TechStackSelection))
    ∧ (∀ rd ∈ [RuleDefinition.mk "r1" "frontend" (some "react")
          "Use \x7b\x7bframework\x7d\x7d hooks."], rd.library = none →
        ∀ p ∈ ([("frontend", "unknown-lib")] : TechStackSelection), p.1 ≠ rd.layer)
    ∧ build aiEnvironmentConfig
        [RuleDefinition.mk "r1" "frontend" (some "react") "Use \x7b\x7bframework\x7d\x7d hooks."]
        [("frontend", "unknown-lib")] ⟨"p", "d", []⟩ "copilot" = Except.ok [] :=
  ⟨by decide, by decide, by decide,
   unknown_libraries_dropped aiEnvironmentConfig
     [RuleDefinition.mk "r1" "frontend" (some "react") "Use \x7b\x7bframework\x7d\x7d hooks."]
     [("frontend", "unknown-lib")] ⟨"p", "d", []⟩ "copilot"
     (EnvConfig.mk "GitHub Copilot" StrategyKind.singleFile "copilot-instructions.md")
     (by decide) (by decide) (by decide)⟩

end RulesBuilder

namespace RulePreviewTopbar

open RulesBuilder

/-- Embedded from `src/components/rule-preview/RulePreviewTopbar.tsx`
(lines 80–99): the dropdown menu maps over the environment names
(`Object.values(AIEnvironmentName)`), looks each one up in
`aiEnvironmentConfig`, and returns `null` — rendering no option — when the
name has no configuration entry. -/
def renderedOptions (names : List String) (cfgs : List (String × EnvConfig)) :
    List (String × EnvConfig) :=
  names.filterMap (fun n => Option.map (fun c => (n, c)) (List.lookup n cfgs))

/-- Embedded from `src/components/rule-preview/RulePreviewTopbar.tsx`
(lines 57–74): the trigger button label is
`selectedConfig?.displayName || 'Select Environment'`; JavaScript `||` also
falls back when `displayName` is the empty string. -/
def triggerLabel (cfgs : List (String × EnvConfig)) (selected : String) :
    String :=
  match List.lookup selected cfgs with
  | some c => if c.displayName == "" then "Select Environment" else c.displayName
  | none => "Select Environment"

/-- C10: the environment selector is total over unbound environment keys:
a name with no entry in the configuration table yields no rendered option;
when the selected environment has no configuration the trigger shows the
fallback label `"Select Environment"`; and every rendered option is an
environment bound to its configuration — so the dropdown can only select
environments bound to a configuration. -/
theorem dropdown_total_over_unbound (names : List String)
    (cfgs : List (String × EnvConfig)) (selected : String) :
    (∀ n, List.lookup n cfgs = none →
      ∀ c, (n, c) ∉ renderedOptions names cfgs)
    ∧ (List.lookup selected cfgs = none →
        triggerLabel cfgs selected = "Select Environment")
    ∧ (∀ n c, (n, c) ∈ renderedOptions names cfgs →
        List.lookup n cfgs = some c ∧ n ∈ names) := by
  have hmem : ∀ n c, (n, c) ∈ renderedOptions names cfgs →
      List.lookup n cfgs = some c ∧ n ∈ names := by
    intro n c hc
    obtain ⟨m, hm, heq⟩ := List.mem_filterMap.mp hc
    cases hm2 : List.lookup m cfgs with
    | none =>
      rw [hm2] at heq
      exact Option.noConfusion heq
    | some c' =>
      rw [hm2] at heq
      simp only [Option.map_some', Option.some.injEq, Prod.mk.injEq] at heq
      obtain ⟨rfl, rfl⟩ := heq
      exact ⟨hm2, hm⟩
  refine ⟨?_, ?_, hmem⟩
  · intro n hn c hc
    have := (hmem n c hc).1
    rw [hn] at this
    exact Option.noConfusion this
  · intro h
    rw [triggerLabel, h]

end RulePreviewTopbar
